import Mathlib

/-!
# Verification of the decfile language core of `decaylanguage`

This file embeds, in Lean, the `.dec` decay-file grammar of
`src/decaylanguage/data/decfile.lark` (reproduced in
`src/decaylanguage/data/README.rst`), the statement interpreter shown in
`notebooks/ExampleDecFileParsingWithLark.ipynb`, and the decay-chain
resolution and flattening operations described in the specification.

Conventions of the embedding:
* An input text is represented as a list of lines; the original text is the
  concatenation of the lines, each terminated by a newline.  Lark's
  `_NEWLINE` tokens are therefore implicit in the line structure.
* The model-name whitelist (`MODEL_NAME.2`, filled at grammar-build time via
  `edit_terminals`) is a parameter `ms` of the lexer, mirroring
  `edit_model_name_terminals` in the notebook.
* Branching fractions and other `SIGNED_NUMBER` literals are represented
  exactly as declared (mantissa and power-of-ten exponent, `NumLit`), with
  an exact rational interpretation `NumLit.toQ` for arithmetic.
* All grammar rejections are the single error `Err.unexpectedToken`,
  mirroring Lark's `UnexpectedToken` exception; lexical rejections are
  `Err.unexpectedChar`, mirroring Lark's `UnexpectedCharacters`.
-/

namespace DecFile

/-- Errors of the pipeline.  The parser itself only ever produces
`unexpectedToken` (Lark's `UnexpectedToken`) or `unexpectedChar`
(Lark's `UnexpectedCharacters`); the remaining constructors model the
interpreter-stage failures described in the specification. -/
inductive Err where
  | unexpectedChar : Err
  | unexpectedToken : Err
  | missingConjugate (p : String) : Err
  | conjDecayMissing (p : String) : Err
  | copySourceMissing (p : String) : Err
deriving DecidableEq, Repr

instance {ε α : Type} [DecidableEq ε] [DecidableEq α] : DecidableEq (Except ε α) :=
  fun a b =>
    match a, b with
    | .ok x, .ok y => decidable_of_iff (x = y) (by simp)
    | .error e, .error f => decidable_of_iff (e = f) (by simp)
    | .ok _, .error _ => isFalse (fun h => Except.noConfusion h)
    | .error _, .ok _ => isFalse (fun h => Except.noConfusion h)

/-- A `SIGNED_NUMBER` literal, stored exactly as declared: a signed
mantissa and a power-of-ten exponent (negative for decimal places).
`0.988228297` is `⟨988228297, -9⟩`. -/
structure NumLit where
  mant : Int
  exp10 : Int
deriving DecidableEq, Repr

/-- Scale a rational by a signed power of ten. -/
def applyExp (q : ℚ) : Int → ℚ
  | .ofNat n => q * 10 ^ n
  | .negSucc n => q / 10 ^ (n + 1)

/-- The exact rational value of a numeric literal. -/
def NumLit.toQ (n : NumLit) : ℚ :=
  applyExp (n.mant : ℚ) n.exp10

/-- Tokens of the decfile lexer: `MODEL_NAME`, `LABEL`, `SIGNED_NUMBER`,
keyword literals of the grammar, and the punctuation terminals
`_SEMICOLON`, `_COMMA`, `":"`, `"="`. -/
inductive Tok where
  | model (s : String)
  | label (s : String)
  | num (q : NumLit)
  | kw (s : String)
  | semi
  | comma
  | colon
  | eq
deriving DecidableEq, Repr

/-- Characters of the `LABEL` terminal: `/[a-zA-Z0-9\/\-+*_().'~]+/`. -/
def isLabelChar (c : Char) : Bool :=
  c.isAlphanum || c = '/' || c = '-' || c = '+' || c = '*' || c = '_' ||
    c = '(' || c = ')' || c = '.' || c = '\'' || c = '~'

/-- Numeric value of a list of decimal digit characters. -/
def natOfDigits (ds : List Char) : Nat :=
  ds.foldl (fun a c => 10 * a + (c.toNat - 48)) 0

/-- Parse the optional exponent suffix `("e"|"E") ["+"|"-"] INT` of a
`FLOAT`; the input must be consumed entirely. -/
def parseExp (cs : List Char) : Option Int :=
  match cs with
  | [] => some 0
  | 'e' :: t =>
    let (sg, t1) : Int × List Char :=
      match t with
      | '+' :: u => (1, u)
      | '-' :: u => (-1, u)
      | u => (1, u)
    let (ds, t2) := t1.span Char.isDigit
    if ds.isEmpty || !t2.isEmpty then none else some (sg * (natOfDigits ds : Int))
  | 'E' :: t =>
    let (sg, t1) : Int × List Char :=
      match t with
      | '+' :: u => (1, u)
      | '-' :: u => (-1, u)
      | u => (1, u)
    let (ds, t2) := t1.span Char.isDigit
    if ds.isEmpty || !t2.isEmpty then none else some (sg * (natOfDigits ds : Int))
  | _ => none

/-- Parse a complete `SIGNED_NUMBER` (Lark `common`):
`["+"|"-"] (INT | INT "." INT? | "." INT) [EXP]`, exactly, with no
rounding and no normalization. -/
def parseNum (cs0 : List Char) : Option NumLit :=
  let (sgn, cs1) : Int × List Char :=
    match cs0 with
    | '+' :: t => (1, t)
    | '-' :: t => (-1, t)
    | t => (1, t)
  let (ds, cs2) := cs1.span Char.isDigit
  match cs2 with
  | '.' :: t =>
    let (fs, cs3) := t.span Char.isDigit
    if ds.isEmpty && fs.isEmpty then none
    else
      match parseExp cs3 with
      | none => none
      | some e => some ⟨sgn * (natOfDigits (ds ++ fs) : Int), e - fs.length⟩
  | rest =>
    if ds.isEmpty then none
    else
      match parseExp rest with
      | none => none
      | some e => some ⟨sgn * (natOfDigits ds : Int), e⟩

/-- The keyword literals appearing in the grammar rules (anonymous string
terminals and the keyword-alternative terminals `LABEL_PYTHIA8_COMMANDS`,
`LABEL_LINESHAPE`, `LABEL_INCLUDE_FACTOR`, `BOOLEAN_INCLUDE_FACTOR`,
`LABEL_CHANGE_MASS`). -/
def kwStrings : List String :=
  ["Decay", "Enddecay", "End", "CDecay", "CopyDecay", "Define", "Alias",
   "ChargeConj", "ModelAlias", "Particle", "JetSetPar", "BlattWeisskopf",
   "SetLineshapePW", "PHOTOS", "yesPhotos", "noPhotos", "yes", "no",
   "PythiaAliasParam", "PythiaBothParam", "PythiaGenericParam",
   "LSFLAT", "LSNONRELBW", "LSMANYDELTAFUNC",
   "IncludeBirthFactor", "IncludeDecayFactor", "ChangeMassMin", "ChangeMassMax"]

/-- Whether every character of a word is a `LABEL` character. -/
def isLabelStr (cs : List Char) : Bool :=
  !cs.isEmpty && cs.all isLabelChar

/-- Classify one maximal word of the input, given the model whitelist `ms`.
`MODEL_NAME.2` has the highest lexical priority, so a whitelisted word is a
model name; keyword literals beat the generic regexes; a `SIGNED_NUMBER`
beats the overlapping `LABEL`. -/
def classifyWord (ms : List String) (cs : List Char) : Option Tok :=
  let w : String := ⟨cs⟩
  if w ∈ ms then some (.model w)
  else if w ∈ kwStrings then some (.kw w)
  else
    match parseNum cs with
    | some q => some (.num q)
    | none => if isLabelStr cs then some (.label w) else none

/-- Emit the token (if any) of the word accumulated so far (held reversed). -/
def flushWord (ms : List String) (w : List Char) : Except Err (List Tok) :=
  match w with
  | [] => .ok []
  | _ =>
    match classifyWord ms w.reverse with
    | some t => .ok [t]
    | none => .error .unexpectedChar

/-- Character-level scan of one line.  Whitespace separates tokens, `#`
starts a comment running to the end of the line (the `COMMENT` terminal,
`%ignore`d), and `;`, `,`, `:`, `=` are single-character tokens.  The
second argument holds the current in-progress word, reversed. -/
def lexAux (ms : List String) : List Char → List Char → Except Err (List Tok)
  | [], w => flushWord ms w
  | c :: cs, w =>
    if isLabelChar c then lexAux ms cs (c :: w)
    else
      match flushWord ms w with
      | .error e => .error e
      | .ok ts =>
        if c = ' ' || c = '\t' then (lexAux ms cs []).map (ts ++ ·)
        else if c = '#' then .ok ts
        else if c = ';' then (lexAux ms cs []).map (fun r => ts ++ Tok.semi :: r)
        else if c = ',' then (lexAux ms cs []).map (fun r => ts ++ Tok.comma :: r)
        else if c = ':' then (lexAux ms cs []).map (fun r => ts ++ Tok.colon :: r)
        else if c = '=' then (lexAux ms cs []).map (fun r => ts ++ Tok.eq :: r)
        else .error .unexpectedChar

/-- Tokenize one line of input. -/
def lexLine (ms : List String) (s : String) : Except Err (List Tok) :=
  lexAux ms s.data []

/-- A parameter in a `model_options` list: `(value | LABEL | _NEWLINE | _COMMA)+`. -/
inductive ModelOpt where
  | num (q : NumLit)
  | label (s : String)
deriving DecidableEq, Repr

/-- The `model` part of a decay line:
`model : (model_label | MODEL_NAME model_options?) _SEMICOLON+`.
A bare label is a model-alias reference, resolved lazily. -/
inductive ModelSpec where
  | alias (l : String)
  | name (m : String) (opts : List ModelOpt)
deriving DecidableEq, Repr

/-- One decay mode, from `decayline : value particle* photos? model`.
The branching fraction is stored exactly as declared. -/
structure Mode where
  bf : NumLit
  daughters : List String
  photos : Bool
  model : ModelSpec
deriving DecidableEq, Repr

/-- Statements of the decfile language (the alternatives of the `?line`
rule of the grammar). -/
inductive Stmt where
  | decay (p : String) (modes : List Mode)
  | cdecay (p : String)
  | copydecay (a b : String)
  | alias (a b : String)
  | chargeconj (a b : String)
  | define (n : String) (v : NumLit)
  | modelAlias (l : String) (m : ModelSpec)
  | globalPhotos (b : Bool)
  | particleDef (n : String) (mass : NumLit) (width : Option NumLit)
  | pythia (cmd a b : String) (v : ModelOpt)
  | jetset (a : String) (v : NumLit)
  | lineshape (kind l : String)
  | incFactor (kind l : String) (b : Bool)
  | blattWeisskopf (l : String) (v : NumLit)
  | setLineshapePW (a b c : String) (n : NumLit)
  | changeMassLimit (kind l : String) (v : NumLit)
deriving DecidableEq, Repr

/-- Split a token list at its first `_SEMICOLON`, if any. -/
def splitSemi : List Tok → Option (List Tok × List Tok)
  | [] => none
  | .semi :: t => some ([], t)
  | a :: t => (splitSemi t).map (fun p => (a :: p.1, p.2))

/-- Read a token list as a pure sequence of `particle` (`LABEL`) tokens. -/
def getLabels : List Tok → Option (List String)
  | [] => some []
  | .label s :: t => (getLabels t).map (s :: ·)
  | _ => none

/-- Split a token list at its first `MODEL_NAME` token, if any. -/
def splitModel : List Tok → Option (List Tok × String × List Tok)
  | [] => none
  | .model m :: t => some ([], m, t)
  | a :: t => (splitModel t).map (fun p => (a :: p.1, p.2.1, p.2.2))

/-- Read the `model_options` tokens (`value`s, `LABEL`s, ignored commas). -/
def optsOf : List Tok → Except Err (List ModelOpt)
  | [] => .ok []
  | .num q :: t => (optsOf t).map (.num q :: ·)
  | .label s :: t => (optsOf t).map (.label s :: ·)
  | .comma :: t => optsOf t
  | _ => .error .unexpectedToken

/-- Parse the `model` tail of a decay line (everything before the first
semicolon) and return the tokens preceding it together with the model:
either the first `MODEL_NAME` token with its options, or, failing that, a
final `LABEL` read as a `model_label` reference. -/
def parseModelPart (body : List Tok) : Except Err (List Tok × ModelSpec) :=
  match splitModel body with
  | some (pre, m, opts) => (optsOf opts).map (fun os => (pre, .name m os))
  | none =>
    match body.getLast? with
    | some (.label m) => .ok (body.dropLast, .alias m)
    | _ => .error .unexpectedToken

/-- Read `particle* photos?`: a sequence of `LABEL` tokens, optionally
terminated by the `PHOTOS` keyword (which sits right before the model). -/
def partsAndPhotos (pre : List Tok) : Except Err (List String × Bool) :=
  match pre.getLast? with
  | some (.kw "PHOTOS") =>
    match getLabels pre.dropLast with
    | some ps => .ok (ps, true)
    | none => .error .unexpectedToken
  | _ =>
    match getLabels pre with
    | some ps => .ok (ps, false)
    | none => .error .unexpectedToken

/-- Parse one `decayline : value particle* photos? model` from the tokens
of one line; the model part must be terminated by one or more semicolons. -/
def parseDecayLine (l : List Tok) : Except Err Mode :=
  match l with
  | .num bf :: rest =>
    match splitSemi rest with
    | none => .error .unexpectedToken
    | some (body, after) =>
      if after.all (fun t => t = Tok.semi) then
        match parseModelPart body with
        | .error e => .error e
        | .ok (pre, msp) =>
          match partsAndPhotos pre with
          | .error e => .error e
          | .ok (ps, ph) => .ok ⟨bf, ps, ph, msp⟩
      else .error .unexpectedToken
  | _ => .error .unexpectedToken

/-- The `LABEL_PYTHIA8_COMMANDS` keyword alternatives. -/
def pythia8Cmds : List String := ["PythiaAliasParam", "PythiaBothParam", "PythiaGenericParam"]

/-- The `LABEL_LINESHAPE` keyword alternatives. -/
def lineshapeCmds : List String := ["LSFLAT", "LSNONRELBW", "LSMANYDELTAFUNC"]

/-- The `LABEL_INCLUDE_FACTOR` keyword alternatives. -/
def includeFactorCmds : List String := ["IncludeBirthFactor", "IncludeDecayFactor"]

/-- The `LABEL_CHANGE_MASS` keyword alternatives. -/
def changeMassCmds : List String := ["ChangeMassMin", "ChangeMassMax"]

/-- Parse a single-line statement (every `?line` alternative except the
multi-line `decay` block, which `pAux` assembles, and the trailing `End`). -/
def parseLineStmt (l : List Tok) : Except Err Stmt :=
  match l with
  | [.kw "Define", .label n, .num v] => .ok (.define n v)
  | [.kw "Alias", .label a, .label b] => .ok (.alias a b)
  | [.kw "ChargeConj", .label a, .label b] => .ok (.chargeconj a b)
  | [.kw "CDecay", .label a] => .ok (.cdecay a)
  | [.kw "CopyDecay", .label a, .label b] => .ok (.copydecay a b)
  | [.kw "Particle", .label n, .num m] => .ok (.particleDef n m none)
  | [.kw "Particle", .label n, .num m, .num w] => .ok (.particleDef n m (some w))
  | [.kw "JetSetPar", .label a, .eq, .num v] => .ok (.jetset a v)
  | [.kw "BlattWeisskopf", .label a, .num v] => .ok (.blattWeisskopf a v)
  | [.kw "SetLineshapePW", .label a, .label b, .label c, .num n] =>
    .ok (.setLineshapePW a b c n)
  | [.kw "yesPhotos"] => .ok (.globalPhotos true)
  | [.kw "noPhotos"] => .ok (.globalPhotos false)
  | .kw "ModelAlias" :: .label lbl :: rest =>
    (match splitSemi rest with
     | some (body, after) =>
       if after.all (fun t => t = Tok.semi) then
         match parseModelPart body with
         | .ok ([], msp) => .ok (.modelAlias lbl msp)
         | _ => .error .unexpectedToken
       else .error .unexpectedToken
     | none => .error .unexpectedToken)
  | [.kw k, .label a, .colon, .label b, .eq, .num v] =>
    if k ∈ pythia8Cmds then .ok (.pythia k a b (.num v)) else .error .unexpectedToken
  | [.kw k, .label a, .colon, .label b, .eq, .label v] =>
    if k ∈ pythia8Cmds then .ok (.pythia k a b (.label v)) else .error .unexpectedToken
  | [.kw k, .label a] =>
    if k ∈ lineshapeCmds then .ok (.lineshape k a) else .error .unexpectedToken
  | [.kw k, .label a, .kw yn] =>
    if k ∈ includeFactorCmds ∧ (yn = "yes" ∨ yn = "no") then
      .ok (.incFactor k a (yn = "yes"))
    else .error .unexpectedToken
  | [.kw k, .label a, .num v] =>
    if k ∈ changeMassCmds then .ok (.changeMassLimit k a v) else .error .unexpectedToken
  | _ => .error .unexpectedToken

/-- Recognize the header line `"Decay" particle` of a decay block and
return the mother's name. -/
def decayHead : List Tok → Option String
  | [.kw "Decay", .label p] => some p
  | _ => none

/-- Whether a line holds no tokens at all (blank, or only a comment). -/
def lexBlank (ms : List String) (s : String) : Bool :=
  match lexLine ms s with
  | .ok [] => true
  | _ => false

/-- Statement-level parse of a whole file, given as a list of lines.
The second argument is the state of an open `Decay … Enddecay` block
(mother plus the modes read so far, reversed); the third accumulates
finished statements, reversed.  Blank and comment lines (which lex to no
tokens) are skipped, matching `_NEWLINE+` and `%ignore COMMENT`; a line
`End` is accepted only when everything after it is blank, matching
`start : _NEWLINE* (line _NEWLINE+)* ("End" _NEWLINE+)?`. -/
def pAux (ms : List String) :
    List String → Option (String × List Mode) → List Stmt → Except Err (List Stmt)
  | [], none, acc => .ok acc.reverse
  | [], some _, _ => .error .unexpectedToken
  | s :: rest, st, acc =>
    match lexLine ms s with
    | .error e => .error e
    | .ok l =>
      match st with
      | some (p, dls) =>
        if l = [] then pAux ms rest st acc
        else if l = [.kw "Enddecay"] then pAux ms rest none (.decay p dls.reverse :: acc)
        else
          match parseDecayLine l with
          | .error e => .error e
          | .ok m => pAux ms rest (some (p, m :: dls)) acc
      | none =>
        if l = [] then pAux ms rest none acc
        else
          match decayHead l with
          | some p => pAux ms rest (some (p, [])) acc
          | none =>
            if l = [.kw "End"] then
              if rest.all (lexBlank ms) then .ok acc.reverse
              else .error .unexpectedToken
            else
              match parseLineStmt l with
              | .error e => .error e
              | .ok stmt => pAux ms rest none (stmt :: acc)

/-- The symbol tables built by the statement interpreter. -/
structure Tables where
  decays : List (String × List Mode)
  warnings : List String
  aliases : List (String × String)
  chargeConj : List (String × String)
  modelAliases : List (String × ModelSpec)
  defines : List (String × NumLit)
  photosAll : Option Bool
  others : List Stmt
deriving DecidableEq, Repr

/-- The empty table set. -/
def initTables : Tables := ⟨[], [], [], [], [], [], none, []⟩

/-- First-match association lookup. -/
def alookup {α : Type} : List (String × α) → String → Option α
  | [], _ => none
  | (a, b) :: t, k => if a = k then some b else alookup t k

/-- Set a key's value in an association list: replace the value in place if
the key is present (as the notebook's Python `dict` assignment does),
otherwise append the binding. -/
def setKey {α : Type} : List (String × α) → String → α → List (String × α)
  | [], k, v => [(k, v)]
  | (a, b) :: t, k, v => if a = k then (a, v) :: t else (a, b) :: setKey t k v

/-- The redefinition diagnostic printed by the notebook interpreter. -/
def redefMsg (p : String) : String :=
  "Decays of particle " ++ p ++ " are redefined! Please check your .dec file."

/-- Bidirectional lookup in the charge-conjugate table: declared pairs are
usable in both directions. -/
def ccLookup : List (String × String) → String → Option String
  | [], _ => none
  | (a, b) :: t, p => if a = p then some b else if b = p then some a else ccLookup t p

/-- Conjugate a daughter: its registered charge conjugate if one exists,
otherwise (self-conjugate particles such as `pi0`) the daughter itself. -/
def conjDaughter (cc : List (String × String)) (d : String) : String :=
  (ccLookup cc d).getD d

/-- Modelled from the spec: `CDecay`-style conjugation of one decay mode
(`DecFileParser`'s decay-modes machinery in `dec.py` is not part of the
available sources).  Every daughter is replaced by its registered charge
conjugate; daughters without one are kept unchanged. -/
def conjMode (cc : List (String × String)) (m : Mode) : Mode :=
  { m with daughters := m.daughters.map (conjDaughter cc) }

/-- Interpret one statement, updating the tables.  The `Decay` case follows
the notebook interpreter: a repeated mother is flagged with a redefinition
diagnostic and its definition is replaced by the new block.  The `CDecay`
and `CopyDecay` cases are modelled from the spec (their `dec.py`
implementation is not part of the available sources). -/
def interpStmt (tbl : Tables) : Stmt → Except Err Tables
  | .decay p modes =>
    .ok { tbl with
          decays := setKey tbl.decays p modes
          warnings :=
            if (alookup tbl.decays p).isSome then tbl.warnings ++ [redefMsg p]
            else tbl.warnings }
  | .cdecay p =>
    match ccLookup tbl.chargeConj p with
    | none => .error (.missingConjugate p)
    | some p' =>
      match alookup tbl.decays p' with
      | none => .error (.conjDecayMissing p)
      | some modes =>
        .ok { tbl with decays := setKey tbl.decays p (modes.map (conjMode tbl.chargeConj)) }
  | .copydecay a b =>
    match alookup tbl.decays b with
    | none => .error (.copySourceMissing b)
    | some modes => .ok { tbl with decays := setKey tbl.decays a modes }
  | .alias a b => .ok { tbl with aliases := tbl.aliases ++ [(a, b)] }
  | .chargeconj a b => .ok { tbl with chargeConj := tbl.chargeConj ++ [(a, b)] }
  | .define n v => .ok { tbl with defines := tbl.defines ++ [(n, v)] }
  | .modelAlias l m => .ok { tbl with modelAliases := tbl.modelAliases ++ [(l, m)] }
  | .globalPhotos b => .ok { tbl with photosAll := some b }
  | s => .ok { tbl with others := tbl.others ++ [s] }

/-- Fold the interpreter over a statement list. -/
def interpAux (tbl : Tables) : List Stmt → Except Err Tables
  | [] => .ok tbl
  | s :: t =>
    match interpStmt tbl s with
    | .error e => .error e
    | .ok tbl' => interpAux tbl' t

/-- The whole pipeline: lex and parse the lines of a file (with model
whitelist `ms`), then interpret the statements into symbol tables. -/
def parseFile (ms : List String) (lines : List String) : Except Err Tables :=
  match pAux ms lines none [] with
  | .error e => .error e
  | .ok stmts => interpAux initTables stmts

/-- The model whitelist used by the example notebook. -/
def demoModels : List String := ["VSS", "VSP_PWAVE", "PHSP", "PI0_DALITZ"]

/-! ## Chain resolution

`build_decay_chains` itself (`dec.py`) is not among the available sources;
the resolver below is modelled from the spec: alias resolution to the
canonical name, stable particles and particles without a decay definition
become leaves, otherwise all modes are attached (OR) and every daughter is
expanded (AND), with the ancestor path threaded through the recursion and
a daughter already on its own path turned into an observably
cycle-truncated leaf. -/

mutual
/-- A resolved decay chain: a leaf (stable, undefined, or cycle-truncated —
the flag records the truncation observably), or a node carrying the decay
modes of its particle, each with the resolved chains of its daughters. -/
inductive Chain where
  | leaf (name : String) (cyc : Bool) : Chain
  | node (name : String) (modes : MChains) : Chain

/-- The modes of a resolved node, each with its daughters' chains. -/
inductive MChains where
  | nil : MChains
  | cons (m : Mode) (children : CList) (rest : MChains) : MChains

/-- A list of resolved chains (one per daughter of a mode). -/
inductive CList where
  | nil : CList
  | cons (c : Chain) (rest : CList) : CList
end

/-- Build a `CList` from an ordinary list of chains. -/
def CList.ofList : List Chain → CList
  | [] => .nil
  | c :: t => .cons c (CList.ofList t)

/-- Build an `MChains` from an ordinary list of modes with children. -/
def MChains.ofList : List (Mode × List Chain) → MChains
  | [] => .nil
  | (m, cs) :: t => .cons m (CList.ofList cs) (MChains.ofList t)

/-- Option-valued map over a list (explicit, so that proofs can unfold it). -/
def mapO {α β : Type} (f : α → Option β) : List α → Option (List β)
  | [] => some []
  | a :: t =>
    match f a with
    | none => none
    | some b => (mapO f t).map (b :: ·)

/-- One-hop alias resolution to the canonical particle name. -/
def aliasResolve (tbl : Tables) (n : String) : String :=
  (alookup tbl.aliases n).getD n

/-- The mother names having a decay definition. -/
def decayKeys (tbl : Tables) : List String :=
  tbl.decays.map Prod.fst

/-- Fuel sufficient to expand any chain whose ancestor path is `path`:
one more than the number of decay-defined names not yet on the path. -/
def chainBound (tbl : Tables) (path : List String) : Nat :=
  ((decayKeys tbl).filter (fun k => decide (k ∉ path))).length + 1

/-- Fuelled chain resolution.  `path` is the stack of canonical names
currently being expanded; a name already on it becomes a cycle-truncated
leaf instead of recursing. -/
def resolveF : Nat → Tables → List String → List String → String → Option Chain
  | 0, _, _, _, _ => none
  | fuel + 1, tbl, stable, path, name =>
    let c := aliasResolve tbl name
    if c ∈ path then some (.leaf c true)
    else if c ∈ stable then some (.leaf c false)
    else
      match alookup tbl.decays c with
      | none => some (.leaf c false)
      | some modes =>
        match mapO (fun m =>
            (mapO (resolveF fuel tbl stable (c :: path)) m.daughters).map
              (fun cs => (m, cs))) modes with
        | none => none
        | some l => some (.node c (MChains.ofList l))

/-- `resolve(root, stable_particles)`: expand `root` with enough fuel for
its table.  The termination theorem shows the fuel never runs out. -/
def resolve (tbl : Tables) (stable : List String) (name : String) : Option Chain :=
  resolveF (chainBound tbl []) tbl stable [] name

mutual
/-- The leaves of a resolved chain (name together with the cycle-truncation
mark).  A node none of whose modes has any daughter chain has no children
in the tree and is itself a (graph-theoretic) leaf. -/
def leavesC : Chain → List (String × Bool)
  | .leaf n b => [(n, b)]
  | .node n ms => if (leavesM ms).isEmpty then [(n, false)] else leavesM ms

/-- Leaves contributed by a list of modes. -/
def leavesM : MChains → List (String × Bool)
  | .nil => []
  | .cons _ cs rest => leavesCl cs ++ leavesM rest

/-- Leaves contributed by a list of chains. -/
def leavesCl : CList → List (String × Bool)
  | .nil => []
  | .cons c rest => leavesC c ++ leavesCl rest
end

/-- The mutually recursive decay table `A → B`, `B → A` of the spec's
termination vignette. -/
def tblAB : Tables :=
  { initTables with
    decays := [("A", [⟨⟨1, 0⟩, ["B"], false, .name "PHSP" []⟩]),
               ("B", [⟨⟨1, 0⟩, ["A"], false, .name "PHSP" []⟩])] }

/-- The chain that resolving `A` against `tblAB` must produce: `A` decays
to `B`, `B` decays to `A`, and that second `A` is a cycle-truncated leaf. -/
def chainAB : Chain :=
  .node "A" (.cons ⟨⟨1, 0⟩, ["B"], false, .name "PHSP" []⟩
    (.cons (.node "B" (.cons ⟨⟨1, 0⟩, ["A"], false, .name "PHSP" []⟩
      (.cons (.leaf "A" true) .nil) .nil))
     .nil) .nil)

theorem mapO_isSome {α β : Type} (f : α → Option β) (l : List α)
    (h : ∀ a ∈ l, (f a).isSome) : (mapO f l).isSome := by
  induction l with
  | nil => simp [mapO]
  | cons a t ih =>
    simp only [mapO]
    have ha := h a (by simp)
    cases hfa : f a with
    | none => rw [hfa] at ha; simp at ha
    | some b =>
      have ht := ih (fun x hx => h x (by simp [hx]))
      cases hmt : mapO f t with
      | none => rw [hmt] at ht; simp at ht
      | some bs => simp

theorem alookup_some_mem {α : Type} (l : List (String × α)) (k : String) (v : α)
    (h : alookup l k = some v) : k ∈ l.map Prod.fst := by
  induction l with
  | nil => simp [alookup] at h
  | cons a t ih =>
    simp only [alookup] at h
    by_cases hk : a.1 = k
    · simp [hk]
    · rw [if_neg hk] at h
      simp [ih h]

/-- Pushing a decay-defined name that is not yet on the path onto the path
strictly shrinks the termination bound. -/
theorem chainBound_cons_lt (tbl : Tables) (path : List String) (c : String)
    (hmem : c ∈ decayKeys tbl) (hnp : c ∉ path) :
    chainBound tbl (c :: path) < chainBound tbl path := by
  have hsub : List.Sublist ((decayKeys tbl).filter (fun k => decide (k ∉ c :: path)))
      ((decayKeys tbl).filter (fun k => decide (k ∉ path))) := by
    apply List.monotone_filter_right
    intro a ha
    simp only [decide_eq_true_eq] at *
    intro hmem'
    exact ha (by simp [hmem'])
  have hcin : c ∈ (decayKeys tbl).filter (fun k => decide (k ∉ path)) := by
    simp [List.mem_filter, hmem, hnp]
  have hcout : c ∉ (decayKeys tbl).filter (fun k => decide (k ∉ c :: path)) := by
    simp [List.mem_filter]
  have hle := hsub.length_le
  rcases lt_or_eq_of_le hle with hlt | heq
  · exact Nat.succ_lt_succ hlt
  · exfalso
    have := hsub.eq_of_length heq
    rw [this] at hcout
    exact hcout hcin

/-- The cycle guard guarantees the fuel `chainBound` is always enough:
resolution never exhausts it. -/
theorem resolveF_isSome :
    ∀ (fuel : Nat) (tbl : Tables) (stable path : List String) (name : String),
      chainBound tbl path ≤ fuel → (resolveF fuel tbl stable path name).isSome := by
  intro fuel
  induction fuel with
  | zero =>
    intro tbl stable path name h
    exact absurd h (by simp [chainBound])
  | succ f ih =>
    intro tbl stable path name h
    simp only [resolveF]
    by_cases h1 : aliasResolve tbl name ∈ path
    · simp [h1]
    · by_cases h2 : aliasResolve tbl name ∈ stable
      · simp [h1, h2]
      · simp only [h1, h2, if_false, if_neg, if_true, ite_false]
        cases hl : alookup tbl.decays (aliasResolve tbl name) with
        | none => simp
        | some modes =>
          have hb : chainBound tbl (aliasResolve tbl name :: path) ≤ f := by
            have := chainBound_cons_lt tbl path (aliasResolve tbl name)
              (alookup_some_mem _ _ _ hl) h1
            omega
          have hms : (mapO (fun m =>
              (mapO (resolveF f tbl stable (aliasResolve tbl name :: path)) m.daughters).map
                (fun cs => (m, cs))) modes).isSome := by
            apply mapO_isSome
            intro m _
            have : (mapO (resolveF f tbl stable (aliasResolve tbl name :: path))
                m.daughters).isSome := by
              apply mapO_isSome
              intro d _
              exact ih tbl stable _ d hb
            cases hx : mapO (resolveF f tbl stable (aliasResolve tbl name :: path))
                m.daughters with
            | none => rw [hx] at this; simp at this
            | some cs => simp
          cases hx : mapO (fun m =>
              (mapO (resolveF f tbl stable (aliasResolve tbl name :: path)) m.daughters).map
                (fun cs => (m, cs))) modes with
          | none => rw [hx] at hms; simp at hms
          | some l => simp [hx]

/-- Every resolved chain has at least one (graph-theoretic) leaf. -/
theorem leavesC_ne_nil (ch : Chain) : leavesC ch ≠ [] := by
  cases ch with
  | leaf n b => simp [leavesC]
  | node n ms =>
    simp only [leavesC]
    by_cases h : (leavesM ms).isEmpty
    · simp [h]
    · rw [if_neg h]
      intro hx
      rw [hx] at h
      exact h rfl

/-- C1: for every symbol-table set, every root and every stable-particle
set, chain resolution terminates (the fuel bound `chainBound` is never
exhausted) and yields a tree with at least one leaf; a particle whose
canonical name already occurs on its own expansion path is returned as a
leaf explicitly marked cycle-truncated rather than being dropped; and on
the mutually recursive table `A → B`, `B → A` resolution of `A` produces
the finite tree `chainAB`, whose single leaf is the cycle-truncated second
occurrence of `A`. -/
theorem c1_resolve_terminates_and_marks_cycles :
    (∀ (tbl : Tables) (stable : List String) (name : String),
       ∃ ch, resolve tbl stable name = some ch ∧ leavesC ch ≠ [])
    ∧ (∀ (fuel : Nat) (tbl : Tables) (stable path : List String) (name : String),
         aliasResolve tbl name ∈ path →
         resolveF (fuel + 1) tbl stable path name =
           some (.leaf (aliasResolve tbl name) true))
    ∧ resolve tblAB [] "A" = some chainAB
    ∧ leavesC chainAB = [("A", true)] := by
  refine ⟨?_, ?_, rfl, rfl⟩
  · intro tbl stable name
    have h := resolveF_isSome (chainBound tbl []) tbl stable [] name le_rfl
    obtain ⟨ch, hch⟩ := Option.isSome_iff_exists.mp h
    exact ⟨ch, hch, leavesC_ne_nil ch⟩
  · intro fuel tbl stable path name h
    simp [resolveF, h]

/-- Witness for C1 at concrete inputs: resolving `B` against `tblAB` with
`B` declared stable yields a chain with a leaf, and a daughter `A` whose
path already holds `A` comes back as the marked cycle-truncated leaf. -/
theorem c1_resolve_terminates_and_marks_cycles_witness :
    (∃ ch, resolve tblAB ["B"] "A" = some ch ∧ leavesC ch ≠ [])
    ∧ resolveF 1 tblAB [] ["A"] "A" = some (.leaf "A" true) :=
  ⟨c1_resolve_terminates_and_marks_cycles.1 tblAB ["B"] "A",
   c1_resolve_terminates_and_marks_cycles.2.1 0 tblAB [] ["A"] "A" (by decide)⟩

/-! ## The Daughters multiset

`DaughtersDict` (`decay.py`) is not among the available sources; equality
and hashing are modelled from the spec: a daughters collection is an
unordered multiset of names (a `Counter`), equal to another exactly when
every name occurs with the same multiplicity, with an order-insensitive
hash. -/

/-- Modelled from the spec: Daughters-multiset equality — two daughter
lists are equal when every name occurs in both with the same multiplicity
(`Counter`-style equality, ignoring order). -/
def deq (a b : List String) : Bool :=
  (a ++ b).all (fun n => a.count n == b.count n)

/-- A hash of one particle name. -/
def strHash (s : String) : Nat :=
  (s.data.map Char.toNat).sum

/-- Modelled from the spec: an order-insensitive hash of a Daughters
multiset, as the sum of the member hashes. -/
def dHash (d : List String) : Nat :=
  (d.map strHash).sum

/-- `deq` is exactly permutation-equivalence of the daughter lists. -/
theorem deq_iff_perm (a b : List String) : deq a b = true ↔ a.Perm b := by
  rw [List.perm_iff_count]
  constructor
  · intro h x
    by_cases hx : x ∈ a ++ b
    · have := List.all_eq_true.mp h x hx
      simpa using this
    · have hxa : x ∉ a := fun hh => hx (List.mem_append.mpr (Or.inl hh))
      have hxb : x ∉ b := fun hh => hx (List.mem_append.mpr (Or.inr hh))
      rw [List.count_eq_zero_of_not_mem hxa, List.count_eq_zero_of_not_mem hxb]
  · intro h
    apply List.all_eq_true.mpr
    intro x _
    simp [h x]

theorem dHash_perm (a b : List String) (h : a.Perm b) : dHash a = dHash b :=
  (h.map strHash).sum_eq

theorem deq_symm' {a b : List String} (h : deq a b = true) : deq b a = true :=
  (deq_iff_perm b a).mpr ((deq_iff_perm a b).mp h).symm

theorem deq_trans' {a b c : List String} (h1 : deq a b = true) (h2 : deq b c = true) :
    deq a c = true :=
  (deq_iff_perm a c).mpr (((deq_iff_perm a b).mp h1).trans ((deq_iff_perm b c).mp h2))

/-- C7: Daughters-multiset equality is order-independent but
multiplicity-sensitive — `deq` holds exactly on permutations, so any
permutation of a multiset is equal to it with an agreeing hash, while the
same names with different multiplicities compare unequal; in particular
`{pi+, pi-, pi0}` equals its permutation `{pi0, pi+, pi-}` (with equal
hashes) and differs from `{pi+, pi+, pi-}`. -/
theorem c7_daughters_multiset_equality :
    (∀ d p : List String, deq d p = true ↔ d.Perm p)
    ∧ (∀ d p : List String, d.Perm p → deq d p = true ∧ dHash d = dHash p)
    ∧ deq ["pi+", "pi-", "pi0"] ["pi0", "pi+", "pi-"] = true
    ∧ dHash ["pi+", "pi-", "pi0"] = dHash ["pi0", "pi+", "pi-"]
    ∧ deq ["pi+", "pi-", "pi0"] ["pi+", "pi+", "pi-"] = false := by
  refine ⟨deq_iff_perm, ?_, by decide, by decide, by decide⟩
  intro d p h
  exact ⟨(deq_iff_perm d p).mpr h, dHash_perm d p h⟩

/-- Witness for C7 at a concrete permutation. -/
theorem c7_daughters_multiset_equality_witness :
    deq ["pi+", "pi-"] ["pi-", "pi+"] = true
    ∧ dHash ["pi+", "pi-"] = dHash ["pi-", "pi+"] :=
  c7_daughters_multiset_equality.2.1 ["pi+", "pi-"] ["pi-", "pi+"] (by decide)

/-! ## Flattening

`flatten` is not among the available sources; it is modelled from the
spec: a nested chain is rewritten into a single-level list of
(cumulative branching fraction, final-state multiset, model trail)
triples, and alternatives ending in identical final-state multisets are
merged by summing their fractions. -/

/-- One flattened alternative: cumulative fraction, final-state multiset
(as a list compared by `deq`), and the trail of model names. -/
structure PEntry where
  frac : ℚ
  fs : List String
  models : List String
deriving DecidableEq, Repr

/-- The name under a model specification (aliases resolve lazily, so the
trail records the label itself). -/
def modelNameOf : ModelSpec → String
  | .alias l => l
  | .name m _ => m

/-- Combine two independent alternatives (AND): fractions multiply, final
states and trails concatenate. -/
def combE (e1 e2 : PEntry) : PEntry :=
  ⟨e1.frac * e2.frac, e1.fs ++ e2.fs, e1.models ++ e2.models⟩

/-- All AND-combinations of two alternative lists. -/
def prodE : List PEntry → List PEntry → List PEntry
  | [], _ => []
  | e :: t, l2 => l2.map (combE e) ++ prodE t l2

mutual
/-- Modelled from the spec: the direct path-by-path walk of a nested
chain — every root-to-leaves selection of modes, with the product of the
branching fractions along it, its final-state multiset, and its model
trail.  No merging happens here. -/
def rawC : Chain → List PEntry
  | .leaf n _ => [⟨1, [n], []⟩]
  | .node _ ms => rawM ms

/-- Paths of a list of modes (OR): alternatives concatenate. -/
def rawM : MChains → List PEntry
  | .nil => []
  | .cons m cs rest =>
    (rawCl cs).map (fun e => ⟨m.bf.toQ * e.frac, e.fs, modelNameOf m.model :: e.models⟩)
      ++ rawM rest

/-- Paths of the daughters of one mode (AND): alternatives combine. -/
def rawCl : CList → List PEntry
  | .nil => [⟨1, [], []⟩]
  | .cons c rest => prodE (rawC c) (rawCl rest)
end

mutual
/-- Whether a chain holds no cycle-truncated leaf. -/
def noTruncC : Chain → Bool
  | .leaf _ b => !b
  | .node _ ms => noTruncM ms

/-- `noTruncC` over a list of modes. -/
def noTruncM : MChains → Bool
  | .nil => true
  | .cons _ cs rest => noTruncCl cs && noTruncM rest

/-- `noTruncC` over a list of chains. -/
def noTruncCl : CList → Bool
  | .nil => true
  | .cons c rest => noTruncC c && noTruncCl rest
end

/-- Merge one alternative into an accumulator: if an entry with the same
final-state multiset is present, add the fractions (keeping that entry's
place and trail); otherwise append. -/
def insertE : List PEntry → PEntry → List PEntry
  | [], e => [e]
  | a :: t, e =>
    if deq e.fs a.fs then { a with frac := a.frac + e.frac } :: t
    else a :: insertE t e

/-- Merge duplicates of a whole alternative list. -/
def mergeE (l : List PEntry) : List PEntry := l.foldl insertE []

/-- Modelled from the spec: `flatten(chain)` — the direct path walk with
identical final-state multisets merged by summing fractions. -/
def flatten (ch : Chain) : List PEntry := mergeE (rawC ch)

/-- Total emitted probability of an alternative list. -/
def fracSum (l : List PEntry) : ℚ := (l.map PEntry.frac).sum

/-- Total probability emitted for one particular final-state multiset. -/
def fracFor (l : List PEntry) (fs : List String) : ℚ :=
  (l.map (fun e => if deq fs e.fs then e.frac else 0)).sum

theorem insertE_sum (acc : List PEntry) (e : PEntry) :
    fracSum (insertE acc e) = fracSum acc + e.frac := by
  induction acc with
  | nil => simp [insertE, fracSum]
  | cons a t ih =>
    simp only [insertE]
    by_cases h : deq e.fs a.fs
    · simp [h, fracSum]
      ring
    · simp only [h, if_false, ite_false, Bool.false_eq_true]
      simp [fracSum] at ih ⊢
      rw [ih]
      ring

theorem mergeE_sum_aux (l acc : List PEntry) :
    fracSum (l.foldl insertE acc) = fracSum acc + fracSum l := by
  induction l generalizing acc with
  | nil => simp [fracSum]
  | cons e t ih =>
    simp only [List.foldl_cons]
    rw [ih, insertE_sum]
    simp [fracSum]
    ring

/-- Merging preserves the total emitted probability. -/
theorem mergeE_sum (l : List PEntry) : fracSum (mergeE l) = fracSum l := by
  have := mergeE_sum_aux l []
  simpa [mergeE, fracSum] using this

theorem insertE_fracFor (acc : List PEntry) (e : PEntry) (fs : List String) :
    fracFor (insertE acc e) fs = fracFor acc fs + (if deq fs e.fs then e.frac else 0) := by
  induction acc with
  | nil => simp [insertE, fracFor]
  | cons a t ih =>
    simp only [insertE]
    by_cases h : deq e.fs a.fs = true
    · by_cases h2 : deq fs e.fs = true
      · have h3 : deq fs a.fs = true := deq_trans' h2 h
        simp [h, h2, h3, fracFor]
        ring
      · have h3 : deq fs a.fs = false := by
          by_contra hcon
          have h4 : deq fs a.fs = true := by
            cases hfa : deq fs a.fs with
            | true => rfl
            | false => exact absurd hfa hcon
          exact absurd (deq_trans' h4 (deq_symm' h)) (by simp [h2])
        have h2' : deq fs e.fs = false := by
          cases hfe : deq fs e.fs with
          | true => exact absurd hfe h2
          | false => rfl
        simp [h, h2', h3, fracFor]
    · have h' : deq e.fs a.fs = false := by
        cases hfa : deq e.fs a.fs with
        | true => exact absurd hfa h
        | false => rfl
      simp only [h', if_false, Bool.false_eq_true, ite_false]
      simp [fracFor] at ih ⊢
      rw [ih]
      ring

theorem mergeE_fracFor_aux (l acc : List PEntry) (fs : List String) :
    fracFor (l.foldl insertE acc) fs = fracFor acc fs + fracFor l fs := by
  induction l generalizing acc with
  | nil => simp [fracFor]
  | cons e t ih =>
    simp only [List.foldl_cons]
    rw [ih, insertE_fracFor]
    simp [fracFor]
    ring

/-- Merging preserves the probability emitted for each final state. -/
theorem mergeE_fracFor (l : List PEntry) (fs : List String) :
    fracFor (mergeE l) fs = fracFor l fs := by
  have := mergeE_fracFor_aux l [] fs
  simpa [mergeE, fracFor] using this

theorem insertE_mem_fs (acc : List PEntry) (e : PEntry) :
    ∀ x ∈ insertE acc e, x.fs ∈ acc.map PEntry.fs ∨ x.fs = e.fs := by
  induction acc with
  | nil =>
    intro x hx
    simp only [insertE, List.mem_singleton] at hx
    right; rw [hx]
  | cons a t ih =>
    intro x hx
    simp only [insertE] at hx
    by_cases h : deq e.fs a.fs
    · rw [if_pos h] at hx
      rcases List.mem_cons.mp hx with h1 | h1
      · left; rw [h1]; exact List.mem_cons_self _ _
      · left; exact List.mem_cons_of_mem _ (List.mem_map_of_mem _ h1)
    · rw [if_neg h] at hx
      rcases List.mem_cons.mp hx with h1 | h1
      · left; rw [h1]; exact List.mem_cons_self _ _
      · rcases ih x h1 with h2 | h2
        · left; exact List.mem_cons_of_mem _ h2
        · right; exact h2

theorem insertE_distinct (acc : List PEntry) (e : PEntry)
    (h : acc.Pairwise (fun x y => deq x.fs y.fs = false)) :
    (insertE acc e).Pairwise (fun x y => deq x.fs y.fs = false) := by
  induction acc with
  | nil => simp [insertE]
  | cons a t ih =>
    rw [List.pairwise_cons] at h
    simp only [insertE]
    by_cases hd : deq e.fs a.fs
    · rw [if_pos hd]
      rw [List.pairwise_cons]
      exact ⟨fun y hy => h.1 y hy, h.2⟩
    · rw [if_neg hd]
      rw [List.pairwise_cons]
      constructor
      · intro y hy
        rcases insertE_mem_fs t e y hy with h1 | h1
        · obtain ⟨z, hz, hzfs⟩ := List.mem_map.mp h1
          have := h.1 z hz
          rw [hzfs] at this
          exact this
        · rw [h1]
          cases hae : deq a.fs e.fs with
          | true => exact absurd (deq_symm' hae) (by simp [hd])
          | false => rfl
      · exact ih h.2

theorem mergeE_distinct_aux (l acc : List PEntry)
    (h : acc.Pairwise (fun x y => deq x.fs y.fs = false)) :
    (l.foldl insertE acc).Pairwise (fun x y => deq x.fs y.fs = false) := by
  induction l generalizing acc with
  | nil => simpa
  | cons e t ih =>
    simp only [List.foldl_cons]
    exact ih _ (insertE_distinct acc e h)

/-- The merged list never holds two entries with equal final states. -/
theorem mergeE_distinct (l : List PEntry) :
    (mergeE l).Pairwise (fun x y => deq x.fs y.fs = false) :=
  mergeE_distinct_aux l [] (by simp)

/-- A chain with two modes whose final-state multisets coincide up to
order, used to exercise duplicate merging. -/
def chDup : Chain :=
  .node "D"
    (.cons ⟨⟨5, -1⟩, ["a", "b"], false, .name "PHSP" []⟩
      (.cons (.leaf "a" false) (.cons (.leaf "b" false) .nil))
      (.cons ⟨⟨25, -2⟩, ["b", "a"], false, .name "VSS" []⟩
        (.cons (.leaf "b" false) (.cons (.leaf "a" false) .nil))
        .nil))

/-- C6: for every chain with no cycle-truncated leaf, the total of the
path fractions emitted by `flatten` equals the total of the products of
branching fractions computed by the direct path-by-path walk of the
nested tree (`rawC`); the per-final-state totals agree as well, and the
flattened list never holds duplicate entries for `deq`-equal final-state
multisets — equal final states are merged by summing their fractions. -/
theorem c6_flatten_preserves_probability :
    ∀ ch : Chain, noTruncC ch = true →
      fracSum (flatten ch) = fracSum (rawC ch)
      ∧ (∀ fs : List String, fracFor (flatten ch) fs = fracFor (rawC ch) fs)
      ∧ (flatten ch).Pairwise (fun x y => deq x.fs y.fs = false) := by
  intro ch _
  exact ⟨mergeE_sum _, fun fs => mergeE_fracFor _ fs, mergeE_distinct _⟩

/-- Witness for C6 on the concrete chain `chDup`, whose two alternatives
share one final-state multiset. -/
theorem c6_flatten_preserves_probability_witness :
    noTruncC chDup = true
    ∧ fracSum (flatten chDup) = fracSum (rawC chDup)
    ∧ fracFor (flatten chDup) ["a", "b"] = fracFor (rawC chDup) ["a", "b"]
    ∧ (flatten chDup).Pairwise (fun x y => deq x.fs y.fs = false) :=
  ⟨by decide,
   (c6_flatten_preserves_probability chDup (by decide)).1,
   (c6_flatten_preserves_probability chDup (by decide)).2.1 ["a", "b"],
   (c6_flatten_preserves_probability chDup (by decide)).2.2⟩

/-! ## Grammar-level properties: comments, `End`, empty blocks, models -/

theorem lexBlank_of (ms : List String) (c : String) (hc : lexLine ms c = .ok []) :
    lexBlank ms c = true := by
  simp [lexBlank, hc]

/-- A line starting with `#` is a pure comment: it lexes to no tokens. -/
theorem lexLine_comment (ms : List String) (c : String) (h : c.data.head? = some '#') :
    lexLine ms c = .ok [] := by
  unfold lexLine
  cases hd : c.data with
  | nil => rw [hd] at h; simp at h
  | cons a t =>
    rw [hd] at h
    simp only [List.head?_cons, Option.some.injEq] at h
    subst h
    simp +decide [lexAux, flushWord]

/-- Inserting a line that lexes to no tokens anywhere between lines leaves
the whole statement parse unchanged, in any parser state. -/
theorem pAux_blank_insert (ms : List String) (c : String) (hc : lexLine ms c = .ok []) :
    ∀ (pre post : List String) (st : Option (String × List Mode)) (acc : List Stmt),
      pAux ms (pre ++ c :: post) st acc = pAux ms (pre ++ post) st acc := by
  intro pre
  induction pre with
  | nil =>
    intro post st acc
    cases st with
    | none => simp [pAux, hc]
    | some pr => simp [pAux, hc]
  | cons s pre ih =>
    intro post st acc
    simp only [List.cons_append, pAux]
    cases hls : lexLine ms s with
    | error e => rfl
    | ok l =>
      cases st with
      | some pr =>
        obtain ⟨p, dls⟩ := pr
        by_cases h1 : l = []
        · simp [h1, ih]
        · by_cases h2 : l = [.kw "Enddecay"]
          · simp [h1, h2, ih]
          · simp only [h1, h2, if_false, ite_false]
            cases hpd : parseDecayLine l with
            | error e => rfl
            | ok m => exact ih post (some (p, m :: dls)) acc
      | none =>
        by_cases h1 : l = []
        · simp [h1, ih]
        · simp only [h1, if_false, ite_false]
          cases hdh : decayHead l with
          | some p => exact ih post (some (p, [])) acc
          | none =>
            by_cases h2 : l = [.kw "End"]
            · have hall : (pre ++ c :: post).all (lexBlank ms)
                  = (pre ++ post).all (lexBlank ms) := by
                simp [List.all_append, List.all_cons, lexBlank_of ms c hc]
              simp only [h2, List.append_eq, ite_true]
              simp only [hall]
            · simp only [h2, if_false, ite_false]
              cases hps : parseLineStmt l with
              | error e => rfl
              | ok stmt => exact ih post none (stmt :: acc)

theorem decayHead_end : decayHead [Tok.kw "End"] = none := rfl

theorem parseDecayLine_end : parseDecayLine [Tok.kw "End"] = .error .unexpectedToken := rfl

/-- Appending a final `End` line to a file none of whose lines is itself
an `End` line leaves the statement parse unchanged, in any parser state. -/
theorem pAux_end_append (ms : List String) (hE : lexLine ms "End" = .ok [.kw "End"]) :
    ∀ (ls : List String) (st : Option (String × List Mode)) (acc : List Stmt),
      (∀ l ∈ ls, lexLine ms l ≠ .ok [.kw "End"]) →
      pAux ms (ls ++ ["End"]) st acc = pAux ms ls st acc := by
  intro ls
  induction ls with
  | nil =>
    intro st acc _
    cases st with
    | none => simp [pAux, hE, decayHead_end]
    | some pr =>
      obtain ⟨p, dls⟩ := pr
      simp [pAux, hE, parseDecayLine_end]
  | cons s ls ih =>
    intro st acc hno
    have hs : lexLine ms s ≠ .ok [.kw "End"] := hno s (by simp)
    have hrest : ∀ l ∈ ls, lexLine ms l ≠ .ok [.kw "End"] := fun l hl => hno l (by simp [hl])
    simp only [List.cons_append, pAux]
    cases hls : lexLine ms s with
    | error e => rfl
    | ok l =>
      cases st with
      | some pr =>
        obtain ⟨p, dls⟩ := pr
        by_cases h1 : l = []
        · simp only [h1, ite_true, if_true, eq_self_iff_true]
          exact ih _ _ hrest
        · by_cases h2 : l = [.kw "Enddecay"]
          · simp only [h1, h2, if_false, ite_false, ite_true, if_true, eq_self_iff_true]
            exact ih _ _ hrest
          · simp only [h1, h2, if_false, ite_false]
            cases hpd : parseDecayLine l with
            | error e => rfl
            | ok m => exact ih _ _ hrest
      | none =>
        by_cases h1 : l = []
        · simp only [h1, ite_true, if_true, eq_self_iff_true]
          exact ih _ _ hrest
        · simp only [h1, if_false, ite_false]
          cases hdh : decayHead l with
          | some p => exact ih _ _ hrest
          | none =>
            by_cases h2 : l = [.kw "End"]
            · exact absurd (h2 ▸ hls) hs
            · simp only [h2, if_false, ite_false]
              cases hps : parseLineStmt l with
              | error e => rfl
              | ok stmt => exact ih _ _ hrest

/-- C9: parsing is invariant under comments and the optional terminator —
inserting a `#`-comment line anywhere between the lines of an input leaves
the parse result (tables and errors alike) unchanged, and appending a
trailing `End` statement to an input that has none leaves the parse result
unchanged, so the input is accepted with the trailing `End` exactly when it
is accepted without it, with the same resulting tables. -/
theorem c9_comment_and_end_invariance :
    (∀ (ms : List String) (pre post : List String) (c : String),
       c.data.head? = some '#' →
       parseFile ms (pre ++ c :: post) = parseFile ms (pre ++ post))
    ∧ (∀ (ms : List String) (ls : List String),
       lexLine ms "End" = .ok [.kw "End"] →
       (∀ l ∈ ls, lexLine ms l ≠ .ok [.kw "End"]) →
       parseFile ms (ls ++ ["End"]) = parseFile ms ls) := by
  constructor
  · intro ms pre post c hc
    unfold parseFile
    rw [pAux_blank_insert ms c (lexLine_comment ms c hc) pre post none []]
  · intro ms ls hE hno
    unfold parseFile
    rw [pAux_end_append ms hE ls none [] hno]

/-- The first three lines of the spec's pi0 decay block. -/
def pi0Head : List String :=
  ["Decay pi0",
   "0.988228297   gamma   gamma                   PHSP;",
   "0.011738247   e+      e-      gamma           PI0_DALITZ;"]

/-- The spec's two-line pi0 decay block, closed by `Enddecay`. -/
def pi0Lines : List String := pi0Head ++ ["Enddecay"]

/-- The first pi0 mode the block declares. -/
def pi0Mode1 : Mode := ⟨⟨988228297, -9⟩, ["gamma", "gamma"], false, .name "PHSP" []⟩

/-- The second pi0 mode the block declares. -/
def pi0Mode2 : Mode := ⟨⟨11738247, -9⟩, ["e+", "e-", "gamma"], false, .name "PI0_DALITZ" []⟩

/-- Witness for C9: a comment line inserted into the pi0 block and a
trailing `End` both leave the parse result unchanged. -/
theorem c9_comment_and_end_invariance_witness :
    parseFile demoModels (pi0Head ++ "# gamma modes" :: ["Enddecay"])
      = parseFile demoModels (pi0Head ++ ["Enddecay"])
    ∧ parseFile demoModels (pi0Lines ++ ["End"]) = parseFile demoModels pi0Lines :=
  ⟨c9_comment_and_end_invariance.1 demoModels pi0Head ["Enddecay"] "# gamma modes"
     (by decide),
   c9_comment_and_end_invariance.2 demoModels pi0Lines (by decide) (by decide)⟩

theorem applyExp_negSucc (q : ℚ) (n : Nat) : applyExp q (.negSucc n) = q / 10 ^ (n + 1) := rfl

theorem neg_nine_int : (-9 : Int) = Int.negSucc 8 := rfl

set_option maxRecDepth 40000 in
/-- C3: parsing the two-line pi0 decay block yields exactly two Decay
Modes for pi0, in declaration order, with branching fractions stored
exactly as declared — `0.988228297` and `0.011738247` — and daughter
multisets `{gamma, gamma}` and `{e+, e-, gamma}`; the fractions are not
auto-normalized (their sum differs from 1 and each equals its declared
decimal value exactly). -/
theorem c3_pi0_block_two_modes :
    parseFile demoModels pi0Lines =
      .ok { initTables with decays := [("pi0", [pi0Mode1, pi0Mode2])] }
    ∧ pi0Mode1.bf = ⟨988228297, -9⟩
    ∧ pi0Mode2.bf = ⟨11738247, -9⟩
    ∧ pi0Mode1.bf.toQ = 988228297 / 1000000000
    ∧ pi0Mode2.bf.toQ = 11738247 / 1000000000
    ∧ deq pi0Mode1.daughters ["gamma", "gamma"] = true
    ∧ deq pi0Mode2.daughters ["e+", "e-", "gamma"] = true
    ∧ pi0Mode1.bf.toQ + pi0Mode2.bf.toQ ≠ 1 := by
  refine ⟨by decide, rfl, rfl, ?_, ?_, by decide, by decide, ?_⟩
  · show applyExp ((988228297 : Int) : ℚ) (-9) = _
    rw [neg_nine_int, applyExp_negSucc]
    norm_num
  · show applyExp ((11738247 : Int) : ℚ) (-9) = _
    rw [neg_nine_int, applyExp_negSucc]
    norm_num
  · show applyExp ((988228297 : Int) : ℚ) (-9) + applyExp ((11738247 : Int) : ℚ) (-9) ≠ 1
    rw [neg_nine_int, applyExp_negSucc, applyExp_negSucc]
    norm_num

/-- C10: a decay block with zero decay lines — `Decay P` immediately
followed by `Enddecay` — is accepted (the grammar's `decayline*` allows
zero repetitions) and produces a Decay Definition binding `P` to the empty
ordered sequence of modes. -/
theorem c10_empty_decay_block (line p : String)
    (h : lexLine demoModels line = .ok [.kw "Decay", .label p]) :
    parseFile demoModels [line, "Enddecay"] =
      .ok { initTables with decays := [(p, [])] } := by
  have hE : lexLine demoModels "Enddecay" = .ok [.kw "Enddecay"] := by decide
  have hdh : decayHead [Tok.kw "Decay", Tok.label p] = some p := rfl
  unfold parseFile
  simp only [pAux, h, hdh, hE]
  simp [interpAux, interpStmt, setKey, alookup, initTables]

/-- Witness for C10 at the concrete particle `MyB0`. -/
theorem c10_empty_decay_block_witness :
    lexLine demoModels "Decay MyB0" = .ok [.kw "Decay", .label "MyB0"]
    ∧ parseFile demoModels ["Decay MyB0", "Enddecay"] =
        .ok { initTables with decays := [("MyB0", [])] } :=
  ⟨by decide, c10_empty_decay_block "Decay MyB0" "MyB0" (by decide)⟩

/-! ## Redefinition (C4) -/

theorem alookup_setKey {α : Type} (l : List (String × α)) (k : String) (v : α) :
    alookup (setKey l k v) k = some v := by
  induction l with
  | nil => simp [setKey, alookup]
  | cons a t ih =>
    simp only [setKey]
    by_cases h : a.1 = k
    · simp [alookup, h]
    · simp [alookup, h, ih]

/-- The single mode of the first `Decay MyB` block below. -/
def redefMode1 : Mode := ⟨⟨10, -1⟩, ["a", "b"], false, .name "PHSP" []⟩

/-- The single mode of the second `Decay MyB` block below. -/
def redefMode2 : Mode := ⟨⟨5, -1⟩, ["c", "d"], false, .name "PHSP" []⟩

/-- An input with two `Decay` blocks for the same mother `MyB`. -/
def redefLines : List String :=
  ["Decay MyB", "1.0 a b PHSP;", "Enddecay",
   "Decay MyB", "0.5 c d PHSP;", "Enddecay"]

set_option maxRecDepth 40000 in
/-- C4 counterexample: on two `Decay MyB … Enddecay` blocks the
interpreter flags the redefinition but keeps the LAST block — after
interpretation `MyB`'s Decay Definition is the second block's single mode,
not the first block's, refuting the claim that the first block's
definition is kept. -/
theorem c4_redefinition_counterexample :
    parseFile demoModels redefLines =
      .ok { initTables with
            decays := [("MyB", [redefMode2])]
            warnings := [redefMsg "MyB"] }
    ∧ [redefMode2] ≠ [redefMode1] := by
  refine ⟨by decide, by decide⟩

/-- C4 amended: a second `Decay` block for an already-defined mother is
never silently merged or silently overwritten — it is flagged with a
Redefinition diagnostic, and the mother's Decay Definition becomes exactly
the modes of the later block (last wins), as the notebook interpreter
does. -/
theorem c4_redefinition_flagged_last_wins (tbl : Tables) (p : String)
    (m1 m2 : List Mode) (h : alookup tbl.decays p = some m1) :
    ∃ tbl', interpStmt tbl (.decay p m2) = .ok tbl'
      ∧ alookup tbl'.decays p = some m2
      ∧ tbl'.warnings = tbl.warnings ++ [redefMsg p] := by
  refine ⟨_, rfl, ?_, ?_⟩
  · exact alookup_setKey _ _ _
  · simp [h]

/-- Witness for C4 (amended) at a concrete redefinition. -/
theorem c4_redefinition_flagged_last_wins_witness :
    ∃ tbl', interpStmt { initTables with decays := [("X", [redefMode1])] }
        (.decay "X" [redefMode2]) = .ok tbl'
      ∧ alookup tbl'.decays "X" = some [redefMode2]
      ∧ tbl'.warnings =
          ({ initTables with decays := [("X", [redefMode1])] } : Tables).warnings
            ++ [redefMsg "X"] :=
  c4_redefinition_flagged_last_wins _ "X" [redefMode1] [redefMode2] (by decide)

/-! ## Charge conjugation (C5) -/

/-- C5: `CDecay M` with a registered conjugate `M'` whose Decay
Definition exists builds `M`'s definition by conjugating every daughter of
every mode of `M'` through the charge-conjugate table (bidirectionally),
leaving daughters without a registered conjugate unchanged; with no
registered conjugate for `M` it fails with the Missing-Conjugate error. -/
theorem c5_cdecay_conjugates_daughters :
    (∀ (tbl : Tables) (p p' : String) (modes : List Mode),
       ccLookup tbl.chargeConj p = some p' →
       alookup tbl.decays p' = some modes →
       ∃ tbl', interpStmt tbl (.cdecay p) = .ok tbl'
         ∧ alookup tbl'.decays p = some (modes.map (conjMode tbl.chargeConj))
         ∧ ∀ m ∈ modes, (conjMode tbl.chargeConj m).daughters
             = m.daughters.map (conjDaughter tbl.chargeConj))
    ∧ (∀ (cc : List (String × String)) (d : String),
         ccLookup cc d = none → conjDaughter cc d = d)
    ∧ (∀ (tbl : Tables) (p : String),
         ccLookup tbl.chargeConj p = none →
         interpStmt tbl (.cdecay p) = .error (.missingConjugate p)) := by
  refine ⟨?_, ?_, ?_⟩
  · intro tbl p p' modes h1 h2
    refine ⟨{ tbl with
              decays := setKey tbl.decays p (modes.map (conjMode tbl.chargeConj)) },
            ?_, ?_, ?_⟩
    · simp [interpStmt, h1, h2]
    · exact alookup_setKey _ _ _
    · intro m _
      rfl
  · intro cc d h
    simp [conjDaughter, h]
  · intro tbl p h
    simp [interpStmt, h]

/-- Tables mimicking the spec's `MyD*+`/`MyD*-` vignette: a conjugate pair
declared through `ChargeConj`, a conjugate pair for the daughter `D0`, and
a decay definition only for `MyD*-`, whose daughters include the
self-conjugate `pi0`. -/
def tblCC : Tables :=
  { initTables with
    aliases := [("MyD*-", "D*-"), ("MyD*+", "D*+")]
    chargeConj := [("MyD*+", "MyD*-"), ("D0", "anti-D0")]
    decays := [("MyD*-", [⟨⟨1, 0⟩, ["anti-D0", "pi0"], false, .name "PHSP" []⟩])] }

/-- Witness for C5: `CDecay MyD*+` conjugates `anti-D0` to `D0` and keeps
the self-conjugate `pi0`; `CDecay` on a particle with no registered
conjugate fails with Missing-Conjugate. -/
theorem c5_cdecay_conjugates_daughters_witness :
    (∃ tbl', interpStmt tblCC (.cdecay "MyD*+") = .ok tbl'
      ∧ alookup tbl'.decays "MyD*+" =
          some [⟨⟨1, 0⟩, ["D0", "pi0"], false, .name "PHSP" []⟩])
    ∧ interpStmt tblCC (.cdecay "NoConj") = .error (.missingConjugate "NoConj") := by
  obtain ⟨tbl', h1, h2, h3⟩ := c5_cdecay_conjugates_daughters.1 tblCC "MyD*+" "MyD*-"
    [⟨⟨1, 0⟩, ["anti-D0", "pi0"], false, .name "PHSP" []⟩] (by decide) (by decide)
  exact ⟨⟨tbl', h1, by exact h2⟩,
         c5_cdecay_conjugates_daughters.2.2 tblCC "NoConj" (by decide)⟩

/-! ## Unknown models (C2) and the model-name terminal (C8) -/

/-- A pi0 block whose decay line names the non-whitelisted model
`NEWMODEL` followed by a parameter. -/
def unknownModelLines : List String :=
  ["Decay pi0", "1.0 e+ e- NEWMODEL 0.5;", "Enddecay"]

/-- The same block with the bare unknown model and no parameters. -/
def unknownModelBare : List String :=
  ["Decay pi0", "1.0 e+ e- NEWMODEL;", "Enddecay"]

/-- A grammatically malformed input: `Alias` without its two arguments. -/
def malformedLines : List String := ["Alias"]

set_option maxRecDepth 40000 in
/-- C2 counterexample: a decay line whose model token is not on the
whitelist does NOT fail with a distinct Unknown-Model error.  With a
trailing parameter it fails with exactly the same generic syntax error
(`unexpectedToken`, Lark's `UnexpectedToken`) as grammatically malformed
input does, and with no parameters it is even accepted, the unknown token
being read as a model-alias label.  The package README documents this:
an unknown model "will result in an `UnexpectedToken` exception". -/
theorem c2_unknown_model_counterexample :
    parseFile demoModels unknownModelLines = .error .unexpectedToken
    ∧ parseFile demoModels malformedLines = .error .unexpectedToken
    ∧ parseFile demoModels unknownModelBare =
        .ok { initTables with
              decays := [("pi0", [⟨⟨10, -1⟩, ["e+", "e-"], false, .alias "NEWMODEL"⟩])] } := by
  refine ⟨by decide, by decide, by decide⟩

/-- C2 amended: a model token absent from the whitelist is lexed as a
generic `LABEL`; a decay line carrying it plus parameters fails with the
same generic `unexpectedToken` syntax error as malformed input (no
distinct Unknown-Model error exists), while the bare token parses as a
model-alias reference. -/
theorem c2_unknown_model_generic_error (ms : List String) (t : String) (q r : NumLit)
    (h1 : t ∉ ms) (h2 : t ∉ kwStrings) (h3 : parseNum t.data = none)
    (h4 : isLabelStr t.data = true) :
    classifyWord ms t.data = some (.label t)
    ∧ parseDecayLine [.num q, .label t, .num r, .semi] = .error .unexpectedToken
    ∧ parseDecayLine [.num q, .label t, .semi] = .ok ⟨q, [], false, .alias t⟩ := by
  refine ⟨?_, rfl, rfl⟩
  simp [classifyWord, h1, h2, h3, h4]

/-- Witness for C2 (amended) at the concrete token `NEWMODEL`. -/
theorem c2_unknown_model_generic_error_witness :
    classifyWord demoModels "NEWMODEL".data = some (.label "NEWMODEL")
    ∧ parseDecayLine [.num ⟨10, -1⟩, .label "NEWMODEL", .num ⟨5, -1⟩, .semi]
        = .error .unexpectedToken
    ∧ parseDecayLine [.num ⟨10, -1⟩, .label "NEWMODEL", .semi]
        = .ok ⟨⟨10, -1⟩, [], false, .alias "NEWMODEL"⟩ :=
  c2_unknown_model_generic_error demoModels "NEWMODEL" ⟨10, -1⟩ ⟨5, -1⟩
    (by decide) (by decide) (by decide) (by decide)

set_option maxRecDepth 40000 in
/-- C8 counterexample: not every non-whitelisted token in a decay line is
classified as a generic label — the branching-fraction token
`0.988228297` of the pi0 decay line is not on the whitelist and the lexer
classifies it as a `SIGNED_NUMBER`, not as a `LABEL`. -/
theorem c8_model_terminal_counterexample :
    lexLine demoModels "0.988228297 gamma gamma PHSP;" =
      .ok [.num ⟨988228297, -9⟩, .label "gamma", .label "gamma", .model "PHSP", .semi]
    ∧ "0.988228297" ∉ demoModels
    ∧ classifyWord demoModels "0.988228297".data = some (.num ⟨988228297, -9⟩)
    ∧ classifyWord demoModels "0.988228297".data ≠ some (.label "0.988228297") := by
  refine ⟨by decide, by decide, by decide, by decide⟩

/-- C8 amended: the model-name terminal is driven entirely by the
supplied whitelist (a parameter of the lexer, not hard-coded): for every
whitelist and every word, the lexer classifies the word as a model name
exactly when it is on the whitelist (the terminal's priority 2 beats every
other classification), and a non-whitelisted word that is not a grammar
keyword and not a numeric literal is classified as a generic label. -/
theorem c8_model_terminal_from_whitelist (ms : List String) (cs : List Char) :
    (classifyWord ms cs = some (.model ⟨cs⟩) ↔ (⟨cs⟩ : String) ∈ ms)
    ∧ ((⟨cs⟩ : String) ∉ ms → (⟨cs⟩ : String) ∉ kwStrings → parseNum cs = none →
        isLabelStr cs = true → classifyWord ms cs = some (.label ⟨cs⟩)) := by
  constructor
  · constructor
    · intro h
      by_cases hm : (⟨cs⟩ : String) ∈ ms
      · exact hm
      · exfalso
        simp only [classifyWord, hm, if_false, ite_false] at h
        by_cases hk : (⟨cs⟩ : String) ∈ kwStrings
        · simp [hk] at h
        · simp only [hk, if_false, ite_false] at h
          cases hp : parseNum cs with
          | some q => rw [hp] at h; simp at h
          | none =>
            rw [hp] at h
            by_cases hl : isLabelStr cs
            · simp [hl] at h
            · simp [hl] at h
    · intro hm
      simp [classifyWord, hm]
  · intro hm hk hp hl
    simp [classifyWord, hm, hk, hp, hl]

/-- Witness for C8 (amended): `PHSP` is classified as a model name for
the notebook's whitelist exactly because it is whitelisted, and the
non-whitelisted `XYZ` is classified as a generic label. -/
theorem c8_model_terminal_from_whitelist_witness :
    (classifyWord demoModels "PHSP".data = some (.model "PHSP") ↔ "PHSP" ∈ demoModels)
    ∧ classifyWord demoModels "XYZ".data = some (.label "XYZ") :=
  ⟨(c8_model_terminal_from_whitelist demoModels "PHSP".data).1,
   (c8_model_terminal_from_whitelist demoModels "XYZ".data).2
     (by decide) (by decide) (by decide) (by decide)⟩

end DecFile
